import Mathlib

/-!
Shallow embedding of `rom_sorter.py` (RomSorter): the name normalizer,
rank-vector builder, duplicate cleaner, file relocator and orchestrator,
together with theorems settling the specification claims.

Strings are modelled over their character lists; character classes follow
the ASCII reading of the Python regexes used by the source.
-/

namespace RomSorter

/-! ## Character classes (ASCII model of the Python regex classes) -/

/-- ASCII whitespace, the characters matched by the regex class `\s`. -/
def isSpaceCh (c : Char) : Bool :=
  c.toNat = 32 || c.toNat = 9 || c.toNat = 10 || c.toNat = 11 || c.toNat = 12 || c.toNat = 13

/-- Decimal digit, the regex class `[0-9]`. -/
def isDigitCh (c : Char) : Bool :=
  48 ≤ c.toNat && c.toNat ≤ 57

/-- The regex class `[0-9\s\-]` of the leading-number-strip step. -/
def isNumPrefixCh (c : Char) : Bool :=
  isDigitCh c || isSpaceCh c || c.toNat = 45

/-- The separator class `[\s_\-:]` collapsed to a single space. -/
def isSepCh (c : Char) : Bool :=
  isSpaceCh c || c.toNat = 95 || c.toNat = 45 || c.toNat = 58

/-- The kept class `[a-zA-Z0-9\s']` of the punctuation-removal step. -/
def isKeepCh (c : Char) : Bool :=
  (97 ≤ c.toNat && c.toNat ≤ 122) || (65 ≤ c.toNat && c.toNat ≤ 90) ||
    isDigitCh c || isSpaceCh c || c.toNat = 39

/-- ASCII lowercasing of one character, as `str.lower` acts on ASCII. -/
def lowerCh (c : Char) : Char :=
  if 65 ≤ c.toNat && c.toNat ≤ 90 then Char.ofNat (c.toNat + 32) else c

/-- The opening curly brace character. -/
def openBrace : Char := Char.ofNat 123

/-- The closing curly brace character. -/
def closeBrace : Char := Char.ofNat 125

/-- The newline character, which `.` in a Python regex does not match. -/
def nlCh : Char := Char.ofNat 10

/-! ## The name normalizer (`normalize_name`) -/

/-- For an opening bracket character, the closing bracket the regex
alternation `\(.*?\)|\{.*?}|\[.*?]` looks for; `none` for other characters. -/
def matchOpen (c : Char) : Option Char :=
  if c = '(' then some ')'
  else if c = openBrace then some closeBrace
  else if c = '[' then some ']'
  else none

/-- Scan for the nearest closing bracket, as the non-greedy `.*?` does:
any character except a newline may be skipped.  Returns the remainder of
the list after the closing bracket. -/
def scanClose (close : Char) : List Char → Option (List Char)
  | [] => none
  | c :: cs => if c = close then some cs else if c = nlCh then none else scanClose close cs

/-- Fuelled scan of `re.sub(r'\(.*?\)|\{.*?}|\[.*?]', '', name)`: at each
position try to match a bracketed group and drop it, otherwise keep the
character and continue.  The fuel only serves structural termination and
is always instantiated with the length of the list. -/
def removeBracketsF : Nat → List Char → List Char
  | 0, l => l
  | _ + 1, [] => []
  | fuel + 1, c :: cs =>
    match matchOpen c with
    | some close =>
      match scanClose close cs with
      | some rest => removeBracketsF fuel rest
      | none => c :: removeBracketsF fuel cs
    | none => c :: removeBracketsF fuel cs

/-- `re.sub(r'\(.*?\)|\{.*?}|\[.*?]', '', name)` on character lists. -/
def removeBrackets (l : List Char) : List Char := removeBracketsF l.length l

/-- Remove a trailing run of whitespace (the right half of `str.strip`). -/
def dropTrailSpaces : List Char → List Char
  | [] => []
  | c :: cs =>
    let r := dropTrailSpaces cs
    if r.isEmpty && isSpaceCh c then [] else c :: r

/-- `str.strip()` on character lists. -/
def stripChars (l : List Char) : List Char := dropTrailSpaces (l.dropWhile isSpaceCh)

/-- Worker for `re.sub(r'[\s_\-:]+', ' ', name)`: the flag records whether
the previous character was part of a separator run already replaced. -/
def collapseGo : Bool → List Char → List Char
  | _, [] => []
  | prevSep, c :: cs =>
    if isSepCh c then
      if prevSep then collapseGo true cs else ' ' :: collapseGo true cs
    else c :: collapseGo false cs

/-- `re.sub(r'[\s_\-:]+', ' ', name)` on character lists. -/
def collapseSeps (l : List Char) : List Char := collapseGo false l

/-- The full `normalize_name` pipeline of the source, on character lists:
drop bracketed groups and strip; drop a leading run of digits, whitespace
and hyphens and strip; collapse separator runs to single spaces; drop all
characters outside `[a-zA-Z0-9\s']`; lowercase and strip. -/
def normalizeChars (l : List Char) : List Char :=
  let s1 := stripChars (removeBrackets l)
  let s2 := stripChars (s1.dropWhile isNumPrefixCh)
  let s3 := collapseSeps s2
  let s4 := s3.filter isKeepCh
  stripChars (s4.map lowerCh)

/-- `normalize_name` of the source, on strings. -/
def normalize_name (s : String) : String := String.mk (normalizeChars s.data)

/-! ## List helpers shared by several components -/

/-- Whether the first list is a prefix of the second. -/
def startsWithL {α : Type} [DecidableEq α] : List α → List α → Bool
  | [], _ => true
  | _ :: _, [] => false
  | a :: as, b :: bs => decide (a = b) && startsWithL as bs

/-- Whether the first list occurs contiguously inside the second
(Python's `needle in haystack` on strings). -/
def occursIn {α : Type} [DecidableEq α] (needle : List α) : List α → Bool
  | [] => needle.isEmpty
  | c :: rest => startsWithL needle (c :: rest) || occursIn needle rest

/-- Whether the first list ends with the second (Python's `str.endswith`). -/
def endsWithL {α : Type} [DecidableEq α] (l suf : List α) : Bool :=
  startsWithL suf.reverse l.reverse

/-! ## Rank vectors (`get_rom_rank_vector`) -/

/-- `[1 if criterion in filename else 0 for criterion in ranking_criteria]`. -/
def get_rom_rank_vector (filename : String) (ranking_criteria : List String) : List Nat :=
  ranking_criteria.map (fun criterion => if occursIn criterion.data filename.data then 1 else 0)

/-- Python's `>` on integer lists: lexicographic, a longer list beats its
proper prefixes. -/
def vecGt : List Nat → List Nat → Bool
  | [], _ => false
  | _ :: _, [] => true
  | a :: as, b :: bs => if b < a then true else if a < b then false else vecGt as bs

/-! ## Paths, filenames and the filesystem model -/

/-- A filesystem path, as its list of segments. -/
abbrev Path := List String

/-- The filesystem: the existing regular files (list order is the
enumeration order of directory scans) and the existing directories. -/
structure FS where
  files : List Path
  dirs : List Path
deriving DecidableEq

/-- The configuration value object consumed by `process_roms`. -/
structure Config where
  rom_source_dir : Path
  rom_destination_dir : Path
  archive_dir : Path
  ranking_criteria : List String
  excluded_dirs : List String
  excluded_extensions : List String
deriving DecidableEq

/-- The log notices the claims talk about, by level and shape. -/
inductive LogEvent where
  | errorSourceMissing : Path → LogEvent
  | infoDryDelete : Path → LogEvent
  | infoDelete : Path → LogEvent
  | warnSkip : String → Path → LogEvent
  | infoDryMove : String → Path → Path → LogEvent
  | infoMove : String → Path → Path → LogEvent
  | warnNoBest : String × String → LogEvent
deriving DecidableEq

/-- Orchestrator state: the filesystem plus the emitted log events. -/
structure St where
  fs : FS
  logs : List LogEvent
deriving DecidableEq

/-- The final segment of a path (`pathlib.Path.name`). -/
def nameOf (p : Path) : String := p.getLastD ""

/-- ASCII `str.lower` on strings. -/
def strLower (s : String) : String := String.mk (s.data.map lowerCh)

/-- The `pathlib` stem/suffix split of a filename: split at the last dot
when that dot is neither the first nor the last character, otherwise the
whole name is the stem and the suffix is empty. -/
def stemSuffix (s : String) : String × String :=
  let l := s.data
  match l.reverse.findIdx? (fun c => c = '.') with
  | none => (s, "")
  | some j =>
    let i := l.length - 1 - j
    if 0 < i && i < l.length - 1 then (String.mk (l.take i), String.mk (l.drop i))
    else (s, "")

/-- `pathlib.Path(f).stem`. -/
def stemOf (s : String) : String := (stemSuffix s).1

/-- `pathlib.Path(f).suffix`. -/
def suffixOf (s : String) : String := (stemSuffix s).2

/-- `pathlib.Path(f).suffix.lower()`. -/
def suffixLowerOf (s : String) : String := strLower (suffixOf s)

/-- `f.lower().endswith('.zip')`. -/
def isZipName (f : String) : Bool := endsWithL (strLower f).data (".zip".data)

/-- Whether `d` is an ancestor of `p` or `p` itself (segment-wise prefix). -/
def isAncestorOf (d p : Path) : Bool :=
  match d, p with
  | [], _ => true
  | _ :: _, [] => false
  | a :: as, b :: bs => decide (a = b) && isAncestorOf as bs

/-- The filenames a directory listing shows for directory `d`
(the `filenames` component of `os.walk` at `d`). -/
def dirFilenames (fs : FS) (d : Path) : List String :=
  fs.files.filterMap (fun q => if q.dropLast = d then q.getLast? else none)

/-- The directories `os.walk(source_dir)` visits: the source itself plus
every existing directory strictly below it. -/
def subdirsOf (fs : FS) (src : Path) : List Path :=
  src :: fs.dirs.filter (fun d => isAncestorOf src d && decide (d ≠ src))

/-- `os.walk(source_dir)` as the list of (directory, filenames) pairs. -/
def fsWalk (fs : FS) (src : Path) : List (Path × List String) :=
  (subdirsOf fs src).map (fun d => (d, dirFilenames fs d))

/-! ## Duplicate cleaner (`cleanup_unzipped_duplicates`) -/

/-- `{pathlib.Path(f).stem for f in filenames if f.lower().endswith('.zip')}`. -/
def zipStems (filenames : List String) : List String :=
  (filenames.filter (fun f => isZipName f)).map (fun f => stemOf f)

/-- The `files_to_remove` of one directory listing: files whose stem has a
`.zip` sibling, whose lowered extension is not `.zip` and is not excluded.
An empty zip-stem set short-circuits, as the `continue` in the source. -/
def filesToRemove (filenames : List String) (excluded_extensions : List String) : List String :=
  if zipStems filenames = [] then []
  else filenames.filter (fun f =>
    decide (stemOf f ∈ zipStems filenames) &&
    decide (suffixLowerOf f ≠ ".zip") &&
    !(decide (suffixLowerOf f ∈ excluded_extensions)))

/-- All paths the cleaner marks for deletion over the walked source tree. -/
def cleanupDeleteSet (fs : FS) (src : Path) (excluded_extensions : List String) : List Path :=
  (fsWalk fs src).flatMap (fun d =>
    (filesToRemove d.2 excluded_extensions).map (fun f => d.1 ++ [f]))

/-- Remove one file from the filesystem (`os.remove`). -/
def applyDelete (fs : FS) (p : Path) : FS :=
  { fs with files := fs.files.filter (fun q => decide (q ≠ p)) }

/-- `cleanup_unzipped_duplicates`: under dry-run only log, otherwise
delete each marked file and log the deletion. -/
def cleanup_unzipped_duplicates (fs : FS) (source_dir : Path) (dry_run : Bool)
    (excluded_extensions : List String) : FS × List LogEvent :=
  let dels := cleanupDeleteSet fs source_dir excluded_extensions
  if dry_run then (fs, dels.map (fun p => LogEvent.infoDryDelete p))
  else (dels.foldl applyDelete fs, dels.map (fun p => LogEvent.infoDelete p))

/-! ## File relocator (`handle_file_move`) -/

/-- `pathlib.Path.exists`: a file or a directory at that path. -/
def pathExists (fs : FS) (p : Path) : Prop := p ∈ fs.files ∨ p ∈ fs.dirs

instance (fs : FS) (p : Path) : Decidable (pathExists fs p) := by
  unfold pathExists; infer_instance

/-- `shutil.move`: the source disappears, the destination appears. -/
def applyMove (fs : FS) (src dst : Path) : FS :=
  { fs with files := fs.files.filter (fun q => decide (q ≠ src)) ++ [dst] }

/-- `handle_file_move`: skip with a warning when the destination exists,
log only under dry-run, otherwise move. -/
def handle_file_move (fs : FS) (source_path dest_path : Path) (dry_run : Bool)
    (is_archive : Bool) : FS × List LogEvent :=
  let action := if is_archive then "ARCHIVE" else "MOVE"
  if pathExists fs dest_path then
    (fs, [LogEvent.warnSkip action dest_path])
  else if dry_run then
    (fs, [LogEvent.infoDryMove action source_path dest_path])
  else
    (applyMove fs source_path dest_path, [LogEvent.infoMove action source_path dest_path])

/-- Run a relocation inside the orchestrator state. -/
def runMove (st : St) (source_path dest_path : Path) (dry_run is_archive : Bool) : St :=
  let r := handle_file_move st.fs source_path dest_path dry_run is_archive
  ⟨r.1, st.logs ++ r.2⟩

/-! ## Orchestrator (`process_roms`) -/

/-- `mkdir(parents=True, exist_ok=True)`: create the directory and all its
missing ancestors. -/
def applyMkdirP (fs : FS) (d : Path) : FS :=
  let newDirs :=
    ((List.range d.length).map (fun i => d.take (i + 1))).filter
      (fun q => !(decide (q ∈ fs.dirs)))
  { fs with dirs := fs.dirs ++ newDirs }

/-- The recursive scan (`source_dir.rglob('*')` restricted to files) with
the extension and directory exclusion rules of the grouping pass. -/
def scanFiles (fs : FS) (src : Path) (excluded_dirs excluded_extensions : List String) :
    List Path :=
  fs.files.filter (fun p =>
    isAncestorOf src p && decide (p ≠ src) &&
    !(decide (strLower (suffixOf (nameOf p)) ∈ excluded_extensions)) &&
    !(p.dropLast.any (fun part => decide (strLower part ∈ excluded_dirs))))

/-- Grouping key: `(normalize_name(stem), suffix)`. -/
def gameKey (p : Path) : String × String :=
  (normalize_name (stemOf (nameOf p)), suffixOf (nameOf p))

/-- Insertion into the insertion-ordered grouping map `roms_by_game`. -/
def addToGroups (gs : List ((String × String) × List Path)) (k : String × String) (p : Path) :
    List ((String × String) × List Path) :=
  match gs with
  | [] => [(k, [p])]
  | (k', ps) :: rest =>
    if k' = k then (k', ps ++ [p]) :: rest else (k', ps) :: addToGroups rest k p

/-- Build the grouping map from the scanned files in scan order. -/
def buildGroups (files : List Path) : List ((String × String) × List Path) :=
  files.foldl (fun gs p => addToGroups gs (gameKey p) p) []

/-- One step of the best-version loop: replace the running best exactly
when the new vector is strictly greater (`best_rom is None or
rank_vector > best_rank_vector`). -/
def selectStep (criteria : List String) (acc : Option (Path × List Nat)) (p : Path) :
    Option (Path × List Nat) :=
  let v := get_rom_rank_vector (nameOf p) criteria
  match acc with
  | none => some (p, v)
  | some (bp, bv) => if vecGt v bv then some (p, v) else some (bp, bv)

/-- The best-version loop over a group. -/
def selectBest (criteria : List String) (rom_paths : List Path) : Option (Path × List Nat) :=
  rom_paths.foldl (selectStep criteria) none

/-- The rank vector of a path's filename. -/
def rankOf (criteria : List String) (p : Path) : List Nat :=
  get_rom_rank_vector (nameOf p) criteria

/-- Process one group: a single member moves to the destination; a larger
group is ranked, the winner moves to the destination and every loser to
the archive; the defensive no-winner branch logs a warning. -/
def processGroup (cfg : Config) (dry_run : Bool) (st : St)
    (kv : (String × String) × List Path) : St :=
  match kv.2 with
  | [rom_path] =>
    runMove st rom_path (cfg.rom_destination_dir ++ [nameOf rom_path]) dry_run false
  | rom_paths =>
    match selectBest cfg.ranking_criteria rom_paths with
    | some (best_rom, _) =>
      let st1 := runMove st best_rom (cfg.rom_destination_dir ++ [nameOf best_rom]) dry_run false
      rom_paths.foldl (fun s q =>
        if q = best_rom then s
        else runMove s q (cfg.archive_dir ++ [nameOf q]) dry_run true) st1
    | none => ⟨st.fs, st.logs ++ [LogEvent.warnNoBest kv.1]⟩

/-- `process_roms`: validate the source directory, create destination and
archive directories, run the cleaner, scan and group, then relocate every
group's winner and losers. -/
def process_roms (fs : FS) (cfg : Config) (dry_run : Bool) : St :=
  if cfg.rom_source_dir ∈ fs.dirs then
    let fs1 := applyMkdirP (applyMkdirP fs cfg.rom_destination_dir) cfg.archive_dir
    let excluded_dirs := cfg.excluded_dirs.map strLower
    let excluded_extensions := cfg.excluded_extensions.map strLower
    let cl := cleanup_unzipped_duplicates fs1 cfg.rom_source_dir dry_run excluded_extensions
    let scanned := scanFiles cl.1 cfg.rom_source_dir excluded_dirs excluded_extensions
    let groups := buildGroups scanned
    groups.foldl (fun st kv => processGroup cfg dry_run st kv) ⟨cl.1, cl.2⟩
  else
    ⟨fs, [LogEvent.errorSourceMissing cfg.rom_source_dir]⟩

/-! ## Normal forms of normalizer output -/

/-- No two adjacent whitespace characters. -/
def noTwoSpaces : List Char → Bool
  | [] => true
  | [_] => true
  | c :: d :: rest => !(isSpaceCh c && isSpaceCh d) && noTwoSpaces (d :: rest)

/-- Characters the normalizer can output: lowercase letters, digits,
space and apostrophe. -/
def isOutCh (c : Char) : Bool :=
  (97 ≤ c.toNat && c.toNat ≤ 122) || isDigitCh c || c.toNat = 32 || c.toNat = 39

/-- The normal form reached after two normalizer passes: only output
characters, no leading digit or space, no trailing space, and no two
adjacent spaces. -/
def NF (l : List Char) : Prop :=
  (∀ c ∈ l, isOutCh c = true) ∧
  (∀ c, l.head? = some c → isDigitCh c = false ∧ isSpaceCh c = false) ∧
  (∀ c, l.getLast? = some c → isSpaceCh c = false) ∧
  noTwoSpaces l = true

/-! ## Concrete instances used by closed theorems -/

/-- Source tree of the end-to-end scenario: `Game (USA).zip`,
`Game (USA).bin` and `Game [!].zip` under the source directory. -/
def fsScenario : FS :=
  ⟨[["roms", "Game (USA).zip"], ["roms", "Game (USA).bin"], ["roms", "Game [!].zip"]],
   [["roms"]]⟩

/-- The default configuration with criteria `["[!]"]`. -/
def cfgScenario : Config :=
  ⟨["roms"], ["sorted"], ["archive"], ["[!]"], ["images"], [".png", ".jpg"]⟩

/-- A filesystem holding only an empty source directory. -/
def fsEmptySource : FS := ⟨[], [["roms"]]⟩

/-! ## Theorems for the claims -/

/-- Claim C3 (counterexample): the normalizer does not map
`"Sonic_The-Hedgehog:2"` to `"sonic the hedgehog2"`; the colon becomes a
space, so the digit stays separated. -/
theorem normalize_name_sonic_counterexample :
    ¬ (normalize_name "Sonic_The-Hedgehog:2" = "sonic the hedgehog2") := by
  decide

/-- Claim C3 (amended): the three normalizer examples evaluate to
`"super mario bros"`, `"legend of zelda"` and `"sonic the hedgehog 2"`,
the third keeping a space before the digit. -/
theorem normalize_name_examples :
    normalize_name "Super Mario Bros. (USA) [!]" = "super mario bros" ∧
    normalize_name "001 - Legend of Zelda" = "legend of zelda" ∧
    normalize_name "Sonic_The-Hedgehog:2" = "sonic the hedgehog 2" := by
  refine ⟨by decide, by decide, by decide⟩

/-- Claim C2 (counterexample): the normalizer is not idempotent; on
`".2"` the first pass yields `"2"` while the second pass strips the now
leading digit and yields `""`. -/
theorem normalize_name_not_idempotent :
    ¬ (normalize_name (normalize_name ".2") = normalize_name ".2") := by
  decide

/-- Claim C6: whenever the destination path already exists (as a file or
a directory), `handle_file_move` leaves the filesystem untouched — so the
source file stays at its original path — and emits exactly one
warning-level notice naming the action kind and the destination, in both
dry-run and live mode and for both MOVE and ARCHIVE requests. -/
theorem handle_file_move_collision_skips (fs : FS) (source_path dest_path : Path)
    (dry_run is_archive : Bool) (h : pathExists fs dest_path) :
    handle_file_move fs source_path dest_path dry_run is_archive =
      (fs, [LogEvent.warnSkip (if is_archive then "ARCHIVE" else "MOVE") dest_path]) := by
  unfold handle_file_move
  rw [if_pos h]

/-- Witness for claim C6 at a concrete collision. -/
theorem handle_file_move_collision_skips_witness :
    handle_file_move ⟨[["a"], ["b"]], []⟩ ["a"] ["b"] false true =
      (⟨[["a"], ["b"]], []⟩, [LogEvent.warnSkip "ARCHIVE" ["b"]]) :=
  handle_file_move_collision_skips ⟨[["a"], ["b"]], []⟩ ["a"] ["b"] false true
    (Or.inl (by decide))

/-- Claim C7: when the configured source directory does not exist,
`process_roms` reports the error and returns with the filesystem fully
unchanged: no directory is created, the cleaner never runs, and no file
is deleted or moved. -/
theorem process_roms_missing_source (fs : FS) (cfg : Config) (dry_run : Bool)
    (h : cfg.rom_source_dir ∉ fs.dirs) :
    process_roms fs cfg dry_run = ⟨fs, [LogEvent.errorSourceMissing cfg.rom_source_dir]⟩ := by
  unfold process_roms
  rw [if_neg h]

/-- Witness for claim C7 at a concrete missing source. -/
theorem process_roms_missing_source_witness :
    process_roms ⟨[], []⟩ cfgScenario true =
      ⟨⟨[], []⟩, [LogEvent.errorSourceMissing ["roms"]]⟩ :=
  process_roms_missing_source ⟨[], []⟩ cfgScenario true (by decide)

/-- Claim C8: on the end-to-end scenario a live run deletes
`Game (USA).bin` in the cleaner pass, moves `Game [!].zip` to the
destination directory and moves `Game (USA).zip` to the archive
directory, in that order. -/
theorem end_to_end_scenario :
    process_roms fsScenario cfgScenario false =
      ⟨⟨[["sorted", "Game [!].zip"], ["archive", "Game (USA).zip"]],
        [["roms"], ["sorted"], ["archive"]]⟩,
       [LogEvent.infoDelete ["roms", "Game (USA).bin"],
        LogEvent.infoMove "MOVE" ["roms", "Game [!].zip"] ["sorted", "Game [!].zip"],
        LogEvent.infoMove "ARCHIVE" ["roms", "Game (USA).zip"]
          ["archive", "Game (USA).zip"]]⟩ := by
  decide

/-- Claim C1 (counterexample): with the dry-run flag set, `process_roms`
still mutates the filesystem on a tree whose destination and archive
directories are missing: it creates them. -/
theorem dry_run_still_creates_dirs :
    ¬ ((process_roms fsEmptySource cfgScenario true).fs = fsEmptySource) := by
  decide

/-- Under dry-run the relocator never touches the filesystem. -/
theorem handle_file_move_dry_fs (fs : FS) (s d : Path) (a : Bool) :
    (handle_file_move fs s d true a).1 = fs := by
  unfold handle_file_move
  by_cases h : pathExists fs d
  · rw [if_pos h]
  · rw [if_neg h]; rfl

/-- Under dry-run `runMove` never touches the filesystem. -/
theorem runMove_dry_fs (st : St) (s d : Path) (a : Bool) :
    (runMove st s d true a).fs = st.fs := by
  show (handle_file_move st.fs s d true a).1 = st.fs
  rw [handle_file_move_dry_fs]

/-- Under dry-run the loser-archiving loop never touches the filesystem. -/
theorem foldl_runMove_dry_fs (cfg : Config) (b : Path) (ps : List Path) :
    ∀ st : St, (ps.foldl (fun s q => if q = b then s
        else runMove s q (cfg.archive_dir ++ [nameOf q]) true true) st).fs = st.fs := by
  induction ps with
  | nil => intro st; rfl
  | cons p ps ih =>
    intro st
    rw [List.foldl_cons, ih]
    by_cases h : p = b
    · rw [if_pos h]
    · rw [if_neg h, runMove_dry_fs]

/-- Under dry-run processing a group never touches the filesystem. -/
theorem processGroup_dry_fs (cfg : Config) (st : St)
    (kv : (String × String) × List Path) :
    (processGroup cfg true st kv).fs = st.fs := by
  obtain ⟨k, ps⟩ := kv
  match ps with
  | [] =>
    show (processGroup cfg true st (k, [])).fs = st.fs
    rfl
  | [p] =>
    show (runMove st p (cfg.rom_destination_dir ++ [nameOf p]) true false).fs = st.fs
    rw [runMove_dry_fs]
  | p :: q :: rest =>
    show (processGroup cfg true st (k, p :: q :: rest)).fs = st.fs
    unfold processGroup
    cases hsel : selectBest cfg.ranking_criteria (p :: q :: rest) with
    | none => simp [hsel]
    | some pr =>
      obtain ⟨bp, bv⟩ := pr
      simp only [hsel]
      rw [foldl_runMove_dry_fs, runMove_dry_fs]

/-- Under dry-run the whole group-processing pass never touches the
filesystem. -/
theorem foldl_processGroup_dry_fs (cfg : Config)
    (groups : List ((String × String) × List Path)) :
    ∀ st : St, ((groups.foldl (fun st kv => processGroup cfg true st kv) st).fs = st.fs) := by
  induction groups with
  | nil => intro st; rfl
  | cons g gs ih =>
    intro st
    rw [List.foldl_cons, ih, processGroup_dry_fs]

/-- Under dry-run the cleaner never touches the filesystem. -/
theorem cleanup_dry_fs (fs : FS) (src : Path) (excl : List String) :
    (cleanup_unzipped_duplicates fs src true excl).1 = fs := by
  rfl

/-- `mkdir` only touches directories, never files. -/
theorem applyMkdirP_files (fs : FS) (d : Path) : (applyMkdirP fs d).files = fs.files := by
  rfl

/-- Claim C1 (amended): a dry run of the orchestrator deletes no file and
moves no file — the file list is returned unchanged — though it still
creates missing destination and archive directories. -/
theorem dry_run_preserves_files (fs : FS) (cfg : Config) :
    (process_roms fs cfg true).fs.files = fs.files := by
  unfold process_roms
  by_cases h : cfg.rom_source_dir ∈ fs.dirs
  · rw [if_pos h]
    show ((buildGroups _).foldl _
      (⟨(cleanup_unzipped_duplicates _ _ true _).1, _⟩ : St)).fs.files = fs.files
    rw [foldl_processGroup_dry_fs]
    rw [cleanup_dry_fs]
    rfl
  · rw [if_neg h]

/-! ## Character-class lemmas -/

/-- `Char.toNat` is injective. -/
theorem char_toNat_inj {a b : Char} (h : a.toNat = b.toNat) : a = b := by
  have h2 := congrArg Char.ofNat h
  rwa [Char.ofNat_toNat, Char.ofNat_toNat] at h2

/-- Character equality through `toNat`. -/
theorem char_eq_iff_toNat {a b : Char} : a = b ↔ a.toNat = b.toNat :=
  ⟨fun h => h ▸ rfl, char_toNat_inj⟩

/-- Arithmetic reading of `isOutCh`. -/
theorem isOutCh_iff {c : Char} : isOutCh c = true ↔
    (97 ≤ c.toNat ∧ c.toNat ≤ 122) ∨ (48 ≤ c.toNat ∧ c.toNat ≤ 57) ∨
      c.toNat = 32 ∨ c.toNat = 39 := by
  simp only [isOutCh, isDigitCh, Bool.or_eq_true, Bool.and_eq_true, decide_eq_true_eq]
  tauto

/-- Arithmetic reading of `isSpaceCh`. -/
theorem isSpaceCh_iff {c : Char} : isSpaceCh c = true ↔
    c.toNat = 32 ∨ c.toNat = 9 ∨ c.toNat = 10 ∨ c.toNat = 11 ∨ c.toNat = 12 ∨
      c.toNat = 13 := by
  simp only [isSpaceCh, Bool.or_eq_true, decide_eq_true_eq]
  tauto

/-- Arithmetic reading of `isSepCh`. -/
theorem isSepCh_iff {c : Char} : isSepCh c = true ↔
    (c.toNat = 32 ∨ c.toNat = 9 ∨ c.toNat = 10 ∨ c.toNat = 11 ∨ c.toNat = 12 ∨
      c.toNat = 13) ∨ c.toNat = 95 ∨ c.toNat = 45 ∨ c.toNat = 58 := by
  simp only [isSepCh, isSpaceCh_iff, Bool.or_eq_true, decide_eq_true_eq]
  tauto

/-- Arithmetic reading of `isDigitCh`. -/
theorem isDigitCh_iff {c : Char} : isDigitCh c = true ↔ 48 ≤ c.toNat ∧ c.toNat ≤ 57 := by
  simp [isDigitCh, Bool.and_eq_true, decide_eq_true_eq]

/-- Output characters are not opening brackets. -/
theorem out_not_open {c : Char} (h : isOutCh c = true) : matchOpen c = none := by
  rw [isOutCh_iff] at h
  have e1 : ('(' : Char).toNat = 40 := rfl
  have e2 : openBrace.toNat = 123 := rfl
  have e3 : ('[' : Char).toNat = 91 := rfl
  unfold matchOpen
  rw [if_neg (fun he => by rw [char_eq_iff_toNat, e1] at he; omega),
    if_neg (fun he => by rw [char_eq_iff_toNat, e2] at he; omega),
    if_neg (fun he => by rw [char_eq_iff_toNat, e3] at he; omega)]

/-- Lowercasing fixes output characters. -/
theorem out_lowerCh_id {c : Char} (h : isOutCh c = true) : lowerCh c = c := by
  rw [isOutCh_iff] at h
  unfold lowerCh
  rw [if_neg]
  simp only [Bool.and_eq_true, decide_eq_true_eq]
  omega

/-- Output characters survive the keep filter. -/
theorem out_keep {c : Char} (h : isOutCh c = true) : isKeepCh c = true := by
  rw [isOutCh_iff] at h
  simp only [isKeepCh, isDigitCh, isSpaceCh, Bool.or_eq_true, Bool.and_eq_true,
    decide_eq_true_eq]
  omega

/-- The only separator among output characters is the space. -/
theorem out_sep_space {c : Char} (h : isOutCh c = true) (hs : isSepCh c = true) :
    c = ' ' := by
  rw [isOutCh_iff] at h
  rw [isSepCh_iff] at hs
  rw [char_eq_iff_toNat]
  have e : (' ' : Char).toNat = 32 := rfl
  rw [e]
  omega

/-- The only whitespace among output characters is the space. -/
theorem out_space_eq {c : Char} (h : isOutCh c = true) (hs : isSpaceCh c = true) :
    c = ' ' := by
  rw [isOutCh_iff] at h
  rw [isSpaceCh_iff] at hs
  rw [char_eq_iff_toNat]
  have e : (' ' : Char).toNat = 32 := rfl
  rw [e]
  omega

/-- An output character that is neither a digit nor whitespace is not in
the leading-number class. -/
theorem out_numPrefix {c : Char} (h : isOutCh c = true) (hd : isDigitCh c = false)
    (hsp : isSpaceCh c = false) : isNumPrefixCh c = false := by
  rw [isOutCh_iff] at h
  unfold isNumPrefixCh
  rw [hd, hsp]
  simp only [Bool.false_or, decide_eq_false_iff_not]
  omega

/-- Whitespace is a separator. -/
theorem space_sep {c : Char} (h : isSpaceCh c = true) : isSepCh c = true := by
  simp [isSepCh, h]

/-- A non-separator is not whitespace. -/
theorem not_sep_not_space {c : Char} (h : isSepCh c = false) : isSpaceCh c = false := by
  cases hs : isSpaceCh c with
  | false => rfl
  | true => rw [space_sep hs] at h; simp at h

/-! ## List-level lemmas about the normalizer building blocks -/

/-- `dropWhile` is the identity when the head fails the predicate. -/
theorem dropWhile_eq_self_of_head {p : Char → Bool} {l : List Char}
    (h : ∀ c, l.head? = some c → p c = false) : l.dropWhile p = l := by
  cases l with
  | nil => rfl
  | cons c cs => simp [List.dropWhile_cons, h c rfl]

/-- The head of a `dropWhile` result fails the predicate. -/
theorem head?_dropWhile {p : Char → Bool} {l : List Char} {c : Char}
    (h : (l.dropWhile p).head? = some c) : p c = false := by
  have hh := List.head?_dropWhile_not p l
  rw [h] at hh
  exact hh

/-- Members of a `dropWhile` result are members of the list. -/
theorem mem_dropWhile {p : Char → Bool} {l : List Char} {c : Char}
    (h : c ∈ l.dropWhile p) : c ∈ l :=
  (List.dropWhile_sublist p).subset h

/-- The tail of a list without adjacent spaces has none either. -/
theorem noTwoSpaces_tail {c : Char} {l : List Char}
    (h : noTwoSpaces (c :: l) = true) : noTwoSpaces l = true := by
  cases l with
  | nil => rfl
  | cons d rest =>
    unfold noTwoSpaces at h
    simp only [Bool.and_eq_true] at h
    exact h.2

/-- The head pair of a list without adjacent spaces is not two spaces. -/
theorem noTwoSpaces_head {c d : Char} {l : List Char}
    (h : noTwoSpaces (c :: d :: l) = true) : (isSpaceCh c && isSpaceCh d) = false := by
  unfold noTwoSpaces at h
  simp only [Bool.and_eq_true, Bool.not_eq_true'] at h
  exact h.1

/-- Build a no-adjacent-spaces list from a head bound and the tail. -/
theorem noTwoSpaces_cons {c : Char} {l : List Char}
    (htail : noTwoSpaces l = true)
    (hhead : ∀ d, l.head? = some d → (isSpaceCh c && isSpaceCh d) = false) :
    noTwoSpaces (c :: l) = true := by
  cases l with
  | nil => rfl
  | cons d rest =>
    unfold noTwoSpaces
    rw [Bool.and_eq_true]
    refine ⟨?_, htail⟩
    rw [hhead d rfl]
    rfl

/-- `dropWhile` preserves the absence of adjacent spaces. -/
theorem noTwoSpaces_dropWhile {p : Char → Bool} {l : List Char}
    (h : noTwoSpaces l = true) : noTwoSpaces (l.dropWhile p) = true := by
  induction l with
  | nil => rfl
  | cons c cs ih =>
    rw [List.dropWhile_cons]
    by_cases hc : p c
    · rw [if_pos hc]
      exact ih (noTwoSpaces_tail h)
    · rw [if_neg hc]
      exact h

/-- The head survives `dropTrailSpaces`. -/
theorem dt_head {l : List Char} {c : Char}
    (h : (dropTrailSpaces l).head? = some c) : l.head? = some c := by
  cases l with
  | nil => simp [dropTrailSpaces] at h
  | cons a cs =>
    simp only [dropTrailSpaces] at h
    split at h
    · simp at h
    · rw [List.head?_cons] at h
      rw [List.head?_cons]
      exact h

/-- `dropTrailSpaces` leaves no trailing whitespace. -/
theorem dt_noTrail {l : List Char} {c : Char}
    (h : (dropTrailSpaces l).getLast? = some c) : isSpaceCh c = false := by
  induction l with
  | nil => simp [dropTrailSpaces] at h
  | cons a cs ih =>
    simp only [dropTrailSpaces] at h
    split at h
    · simp at h
    · rename_i hcond
      cases hr : dropTrailSpaces cs with
      | nil =>
        rw [hr] at h
        have hca : a = c := by simpa using h
        subst hca
        rw [hr] at hcond
        simp only [List.isEmpty_nil, Bool.true_and] at hcond
        simpa using hcond
      | cons b bs =>
        rw [hr, List.getLast?_cons_cons, ← hr] at h
        exact ih h

/-- `dropTrailSpaces` is the identity when there is no trailing whitespace. -/
theorem dt_eq_self {l : List Char}
    (h : ∀ c, l.getLast? = some c → isSpaceCh c = false) : dropTrailSpaces l = l := by
  induction l with
  | nil => rfl
  | cons a cs ih =>
    cases hcs : cs with
    | nil =>
      have ha := h a (by rw [hcs]; simp)
      subst hcs
      simp [dropTrailSpaces, ha]
    | cons b bs =>
      subst hcs
      have hr : dropTrailSpaces (b :: bs) = b :: bs := by
        apply ih
        intro c hc
        apply h
        rw [List.getLast?_cons_cons]
        exact hc
      show (if (dropTrailSpaces (b :: bs)).isEmpty && isSpaceCh a then []
            else a :: dropTrailSpaces (b :: bs)) = a :: b :: bs
      rw [hr]
      rw [if_neg]
      simp

/-- Members of a `dropTrailSpaces` result are members of the list. -/
theorem mem_dt {l : List Char} {c : Char} (h : c ∈ dropTrailSpaces l) : c ∈ l := by
  induction l with
  | nil => simp [dropTrailSpaces] at h
  | cons a cs ih =>
    simp only [dropTrailSpaces] at h
    split at h
    · simp at h
    · rw [List.mem_cons] at h ⊢
      cases h with
      | inl h => exact Or.inl h
      | inr h => exact Or.inr (ih h)

/-- `dropTrailSpaces` preserves the absence of adjacent spaces. -/
theorem noTwoSpaces_dt {l : List Char}
    (h : noTwoSpaces l = true) : noTwoSpaces (dropTrailSpaces l) = true := by
  induction l with
  | nil => rfl
  | cons a cs ih =>
    simp only [dropTrailSpaces]
    split
    · rfl
    · apply noTwoSpaces_cons (ih (noTwoSpaces_tail h))
      intro d hd
      have hcs : cs.head? = some d := dt_head hd
      cases cs with
      | nil => simp at hcs
      | cons b bs =>
        rw [List.head?_cons, Option.some.injEq] at hcs
        subst hcs
        exact noTwoSpaces_head h

/-- `stripChars` keeps no leading whitespace. -/
theorem strip_noLead {l : List Char} {c : Char}
    (h : (stripChars l).head? = some c) : isSpaceCh c = false :=
  head?_dropWhile (dt_head h)

/-- `stripChars` keeps no trailing whitespace. -/
theorem strip_noTrail {l : List Char} {c : Char}
    (h : (stripChars l).getLast? = some c) : isSpaceCh c = false :=
  dt_noTrail h

/-- `stripChars` is the identity on stripped lists. -/
theorem strip_eq_self {l : List Char}
    (hl : ∀ c, l.head? = some c → isSpaceCh c = false)
    (ht : ∀ c, l.getLast? = some c → isSpaceCh c = false) : stripChars l = l := by
  unfold stripChars
  rw [dropWhile_eq_self_of_head hl]
  exact dt_eq_self ht

/-- Members of a `stripChars` result are members of the list. -/
theorem mem_strip {l : List Char} {c : Char} (h : c ∈ stripChars l) : c ∈ l :=
  mem_dropWhile (mem_dt h)

/-- `stripChars` preserves the absence of adjacent spaces. -/
theorem noTwoSpaces_strip {l : List Char} (h : noTwoSpaces l = true) :
    noTwoSpaces (stripChars l) = true :=
  noTwoSpaces_dt (noTwoSpaces_dropWhile h)

/-- The head survives `stripChars` when the list has no leading
whitespace. -/
theorem strip_head {l : List Char} {c : Char}
    (hl : ∀ d, l.head? = some d → isSpaceCh d = false)
    (h : (stripChars l).head? = some c) : l.head? = some c := by
  unfold stripChars at h
  rw [dropWhile_eq_self_of_head hl] at h
  exact dt_head h

/-- Characters of `collapseGo` output: a space, or a non-separator
character of the input. -/
theorem mem_collapseGo {c : Char} : ∀ (l : List Char) (b : Bool),
    c ∈ collapseGo b l → c = ' ' ∨ (c ∈ l ∧ isSepCh c = false) := by
  intro l
  induction l with
  | nil => intro b h; simp [collapseGo] at h
  | cons a cs ih =>
    intro b h
    by_cases ha : isSepCh a = true
    · cases b with
      | true =>
        have h' : c ∈ collapseGo true cs := by simpa [collapseGo, ha] using h
        rcases ih true h' with h1 | ⟨h2, h3⟩
        · exact Or.inl h1
        · exact Or.inr ⟨List.mem_cons_of_mem _ h2, h3⟩
      | false =>
        have h' : c ∈ ' ' :: collapseGo true cs := by simpa [collapseGo, ha] using h
        rcases List.mem_cons.mp h' with h1 | h1
        · exact Or.inl h1
        · rcases ih true h1 with h2 | ⟨h2, h3⟩
          · exact Or.inl h2
          · exact Or.inr ⟨List.mem_cons_of_mem _ h2, h3⟩
    · have ha' : isSepCh a = false := by simpa using ha
      have h' : c ∈ a :: collapseGo false cs := by simpa [collapseGo, ha'] using h
      rcases List.mem_cons.mp h' with h1 | h1
      · subst h1
        exact Or.inr ⟨List.mem_cons_self _ _, ha'⟩
      · rcases ih false h1 with h2 | ⟨h2, h3⟩
        · exact Or.inl h2
        · exact Or.inr ⟨List.mem_cons_of_mem _ h2, h3⟩

/-- The head of `collapseGo true` output is not a separator. -/
theorem collapseGo_true_head {c : Char} : ∀ l : List Char,
    (collapseGo true l).head? = some c → isSepCh c = false := by
  intro l
  induction l with
  | nil => intro h; simp [collapseGo] at h
  | cons a cs ih =>
    intro h
    by_cases ha : isSepCh a = true
    · rw [show collapseGo true (a :: cs) = collapseGo true cs by
        simp [collapseGo, ha]] at h
      exact ih h
    · have ha' : isSepCh a = false := by simpa using ha
      rw [show collapseGo true (a :: cs) = a :: collapseGo false cs by
        simp [collapseGo, ha']] at h
      rw [List.head?_cons, Option.some.injEq] at h
      subst h
      exact ha'

/-- `collapseGo` output has no adjacent spaces. -/
theorem noTwoSpaces_collapseGo : ∀ (l : List Char) (b : Bool),
    noTwoSpaces (collapseGo b l) = true := by
  intro l
  induction l with
  | nil => intro b; rfl
  | cons a cs ih =>
    intro b
    by_cases ha : isSepCh a = true
    · cases b with
      | true =>
        rw [show collapseGo true (a :: cs) = collapseGo true cs by simp [collapseGo, ha]]
        exact ih true
      | false =>
        rw [show collapseGo false (a :: cs) = ' ' :: collapseGo true cs by
          simp [collapseGo, ha]]
        apply noTwoSpaces_cons (ih true)
        intro d hd
        rw [not_sep_not_space (collapseGo_true_head _ hd)]
        simp
    · have ha' : isSepCh a = false := by simpa using ha
      rw [show collapseGo b (a :: cs) = a :: collapseGo false cs by simp [collapseGo, ha']]
      apply noTwoSpaces_cons (ih false)
      intro d hd
      rw [not_sep_not_space ha']
      simp

/-- The head of `collapseGo` is the head of the list, when that head is
not a separator. -/
theorem collapseGo_head_nonsep {l : List Char} {c : Char} (b : Bool)
    (h : l.head? = some c) (hc : isSepCh c = false) :
    (collapseGo b l).head? = some c := by
  cases l with
  | nil => simp at h
  | cons a cs =>
    rw [List.head?_cons, Option.some.injEq] at h
    have hac : isSepCh a = false := by rw [h]; exact hc
    rw [show collapseGo b (a :: cs) = a :: collapseGo false cs by simp [collapseGo, hac]]
    rw [List.head?_cons, h]

/-- `collapseGo` is the identity when every separator is a single space
not followed by another separator. -/
theorem collapseGo_eq_self : ∀ (l : List Char) (b : Bool),
    (∀ c ∈ l, isSepCh c = true → c = ' ') → noTwoSpaces l = true →
    (b = true → ∀ c, l.head? = some c → isSepCh c = false) →
    collapseGo b l = l := by
  intro l
  induction l with
  | nil => intro b _ _ _; rfl
  | cons a cs ih =>
    intro b hsep hnts hb
    by_cases ha : isSepCh a = true
    · have ha' : a = ' ' := hsep a (List.mem_cons_self _ _) ha
      cases b with
      | true =>
        have haf := hb rfl a rfl
        simp [haf] at ha
      | false =>
        rw [show collapseGo false (a :: cs) = ' ' :: collapseGo true cs by
          simp [collapseGo, ha]]
        rw [← ha']
        congr 1
        apply ih true (fun c hc hs => hsep c (List.mem_cons_of_mem _ hc) hs)
          (noTwoSpaces_tail hnts)
        intro _ c hc
        cases cs with
        | nil => simp at hc
        | cons d ds =>
          rw [List.head?_cons, Option.some.injEq] at hc
          rw [← hc]
          cases hd : isSepCh d with
          | false => rfl
          | true =>
            have hd' : d = ' ' := hsep d (by simp) hd
            have hpair := noTwoSpaces_head hnts
            rw [ha', hd'] at hpair
            simp [isSpaceCh] at hpair
    · have ha' : isSepCh a = false := by simpa using ha
      rw [show collapseGo b (a :: cs) = a :: collapseGo false cs by simp [collapseGo, ha']]
      congr 1
      exact ih false (fun c hc hs => hsep c (List.mem_cons_of_mem _ hc) hs)
        (noTwoSpaces_tail hnts) (fun h => Bool.noConfusion h)

/-- `removeBracketsF` is the identity when no character opens a bracket. -/
theorem removeBracketsF_eq_self : ∀ (fuel : Nat) (l : List Char),
    l.length ≤ fuel → (∀ c ∈ l, matchOpen c = none) → removeBracketsF fuel l = l := by
  intro fuel
  induction fuel with
  | zero => intro l _ _; rfl
  | succ n ih =>
    intro l hlen hop
    cases l with
    | nil => rfl
    | cons c cs =>
      rw [show removeBracketsF (n + 1) (c :: cs) = c :: removeBracketsF n cs by
        simp [removeBracketsF, hop c (List.mem_cons_self _ _)]]
      congr 1
      apply ih cs
      · rw [List.length_cons] at hlen
        omega
      · exact fun d hd => hop d (List.mem_cons_of_mem _ hd)

/-- `removeBrackets` is the identity when no character opens a bracket. -/
theorem removeBrackets_eq_self {l : List Char} (h : ∀ c ∈ l, matchOpen c = none) :
    removeBrackets l = l :=
  removeBracketsF_eq_self l.length l (Nat.le_refl _) h

/-- Lowercasing an uppercase letter adds 32 to its code. -/
theorem toNat_lowerCh_upper {c : Char} (h1 : 65 ≤ c.toNat) (h2 : c.toNat ≤ 90) :
    (lowerCh c).toNat = c.toNat + 32 := by
  unfold lowerCh
  rw [if_pos (by simp only [Bool.and_eq_true, decide_eq_true_eq]; omega)]
  have hv : (c.toNat + 32).isValidChar := Or.inl (by omega)
  rw [Char.ofNat, dif_pos hv]
  rfl

/-- Lowercasing fixes anything that is not an uppercase letter. -/
theorem lowerCh_eq_self {c : Char} (h : ¬ (65 ≤ c.toNat ∧ c.toNat ≤ 90)) :
    lowerCh c = c := by
  have h' : (65 ≤ c.toNat && c.toNat ≤ 90) ≠ true := by
    simp only [ne_eq, Bool.and_eq_true, decide_eq_true_eq]
    exact h
  unfold lowerCh
  rw [if_neg h']

/-- A kept character that is a space or not a separator lowercases into
an output character. -/
theorem keep_lower_out {d : Char} (hk : isKeepCh d = true)
    (hs : d = ' ' ∨ isSepCh d = false) : isOutCh (lowerCh d) = true := by
  by_cases hu : 65 ≤ d.toNat ∧ d.toNat ≤ 90
  · rw [isOutCh_iff, toNat_lowerCh_upper hu.1 hu.2]
    omega
  · rw [lowerCh_eq_self hu, isOutCh_iff]
    rcases hs with h1 | h1
    · subst h1; right; right; left; rfl
    · have hsp : isSpaceCh d = false := not_sep_not_space h1
      have hsp' : ¬ (d.toNat = 32 ∨ d.toNat = 9 ∨ d.toNat = 10 ∨ d.toNat = 11 ∨
          d.toNat = 12 ∨ d.toNat = 13) := by
        rw [← isSpaceCh_iff]
        simp [hsp]
      have hk' : (97 ≤ d.toNat ∧ d.toNat ≤ 122) ∨ (65 ≤ d.toNat ∧ d.toNat ≤ 90) ∨
          (48 ≤ d.toNat ∧ d.toNat ≤ 57) ∨
          (d.toNat = 32 ∨ d.toNat = 9 ∨ d.toNat = 10 ∨ d.toNat = 11 ∨ d.toNat = 12 ∨
            d.toNat = 13) ∨ d.toNat = 39 := by
        simp only [isKeepCh, isDigitCh, isSpaceCh, Bool.or_eq_true, Bool.and_eq_true,
          decide_eq_true_eq] at hk
        tauto
      omega

/-- An output character that is not whitespace is not a separator. -/
theorem out_not_space_not_sep {c : Char} (ho : isOutCh c = true)
    (hs : isSpaceCh c = false) : isSepCh c = false := by
  cases h : isSepCh c with
  | false => rfl
  | true =>
    have hc := out_sep_space ho h
    rw [hc] at hs
    exact absurd hs (by decide)

/-- A character failing the leading-number class is neither a digit nor
whitespace. -/
theorem numPrefix_false_parts {c : Char} (h : isNumPrefixCh c = false) :
    isDigitCh c = false ∧ isSpaceCh c = false := by
  unfold isNumPrefixCh at h
  simp only [Bool.or_eq_false_iff] at h
  exact ⟨h.1.1, h.1.2⟩

/-- The head of a list is a member. -/
theorem mem_of_head? {l : List Char} {c : Char} (h : l.head? = some c) : c ∈ l := by
  cases l with
  | nil => simp at h
  | cons a cs =>
    rw [List.head?_cons, Option.some.injEq] at h
    rw [← h]
    exact List.mem_cons_self _ _

/-- Mapping a function that fixes every member is the identity. -/
theorem map_id_of_eq {l : List Char} (h : ∀ c ∈ l, lowerCh c = c) :
    l.map lowerCh = l := by
  induction l with
  | nil => rfl
  | cons a cs ih =>
    rw [List.map_cons, h a (List.mem_cons_self _ _),
      ih (fun c hc => h c (List.mem_cons_of_mem _ hc))]

/-- Trailing non-whitespace survives `dropWhile`. -/
theorem noTrail_dropWhile {p : Char → Bool} : ∀ l : List Char,
    (∀ c, l.getLast? = some c → isSpaceCh c = false) →
    ∀ c, (l.dropWhile p).getLast? = some c → isSpaceCh c = false := by
  intro l
  induction l with
  | nil => intro _ c hc; simp at hc
  | cons a cs ih =>
    intro h c hc
    rw [List.dropWhile_cons] at hc
    by_cases hp : p a
    · rw [if_pos hp] at hc
      have hcs : ∀ d, cs.getLast? = some d → isSpaceCh d = false := by
        intro d hd
        apply h
        cases cs with
        | nil => simp at hd
        | cons b bs => rw [List.getLast?_cons_cons]; exact hd
      exact ih hcs c hc
    · rw [if_neg hp] at hc
      exact h c hc

/-- Every character that `normalizeChars` outputs is an output character. -/
theorem normalizeChars_out {l : List Char} {c : Char} (h : c ∈ normalizeChars l) :
    isOutCh c = true := by
  simp only [normalizeChars, collapseSeps] at h
  have h1 := mem_strip h
  rw [List.mem_map] at h1
  obtain ⟨d, hd, hdc⟩ := h1
  rw [List.mem_filter] at hd
  obtain ⟨hd1, hdk⟩ := hd
  have hd2 := mem_collapseGo _ _ hd1
  rw [← hdc]
  rcases hd2 with h2 | ⟨_, h3⟩
  · subst h2; decide
  · exact keep_lower_out hdk (Or.inr h3)

/-- The output of `normalizeChars` has no leading whitespace. -/
theorem normalizeChars_noLead {l : List Char} {c : Char}
    (h : (normalizeChars l).head? = some c) : isSpaceCh c = false := by
  simp only [normalizeChars] at h
  exact strip_noLead h

/-- The output of `normalizeChars` has no trailing whitespace. -/
theorem normalizeChars_noTrail {l : List Char} {c : Char}
    (h : (normalizeChars l).getLast? = some c) : isSpaceCh c = false := by
  simp only [normalizeChars] at h
  exact strip_noTrail h

/-- One normalizer pass is the identity on lists in normal form. -/
theorem normalizeChars_eq_self_of_NF {l : List Char} (h : NF l) :
    normalizeChars l = l := by
  obtain ⟨hout, hhead, htrail, hnts⟩ := h
  have hlead : ∀ c, l.head? = some c → isSpaceCh c = false := fun c hc => (hhead c hc).2
  have h1 : removeBrackets l = l :=
    removeBrackets_eq_self (fun c hc => out_not_open (hout c hc))
  have h2 : stripChars l = l := strip_eq_self hlead htrail
  have h3 : l.dropWhile isNumPrefixCh = l := by
    apply dropWhile_eq_self_of_head
    intro c hc
    exact out_numPrefix (hout c (mem_of_head? hc)) (hhead c hc).1 (hhead c hc).2
  have h4 : collapseGo false l = l :=
    collapseGo_eq_self l false (fun c hc hs => out_sep_space (hout c hc) hs) hnts
      (fun hf => Bool.noConfusion hf)
  have h5 : l.filter isKeepCh = l :=
    List.filter_eq_self.mpr (fun c hc => out_keep (hout c hc))
  have h6 : l.map lowerCh = l := map_id_of_eq (fun c hc => out_lowerCh_id (hout c hc))
  simp only [normalizeChars, collapseSeps]
  rw [h1, h2, h3, h2, h4, h5, h6, h2]

/-- Two normalizer passes land in the normal form. -/
theorem NF_normalizeChars_twice (l : List Char) :
    NF (normalizeChars (normalizeChars l)) := by
  set t := normalizeChars l with ht
  have htout : ∀ c ∈ t, isOutCh c = true := fun c hc => normalizeChars_out hc
  have htlead : ∀ c, t.head? = some c → isSpaceCh c = false :=
    fun c hc => normalizeChars_noLead hc
  have httrail : ∀ c, t.getLast? = some c → isSpaceCh c = false :=
    fun c hc => normalizeChars_noTrail hc
  have h1 : removeBrackets t = t :=
    removeBrackets_eq_self (fun c hc => out_not_open (htout c hc))
  have h2 : stripChars t = t := strip_eq_self htlead httrail
  set u := t.dropWhile isNumPrefixCh with hu
  have huout : ∀ c ∈ u, isOutCh c = true := fun c hc => htout c (mem_dropWhile hc)
  have huleadnum : ∀ c, u.head? = some c → isNumPrefixCh c = false :=
    fun c hc => head?_dropWhile hc
  have huleadsp : ∀ c, u.head? = some c → isSpaceCh c = false :=
    fun c hc => (numPrefix_false_parts (huleadnum c hc)).2
  have hutrail : ∀ c, u.getLast? = some c → isSpaceCh c = false :=
    noTrail_dropWhile t httrail
  have hs2 : stripChars u = u := strip_eq_self huleadsp hutrail
  set v := collapseGo false u with hv
  have hvout : ∀ c ∈ v, isOutCh c = true := by
    intro c hc
    rcases mem_collapseGo _ _ hc with hsp | ⟨hmem, _⟩
    · subst hsp; decide
    · exact huout c hmem
  have hvnts : noTwoSpaces v = true := noTwoSpaces_collapseGo u false
  have hvhead : ∀ c, v.head? = some c → isDigitCh c = false ∧ isSpaceCh c = false := by
    intro c hc
    cases hucase : u with
    | nil =>
      rw [hv, hucase] at hc
      simp [collapseGo] at hc
    | cons c0 cs0 =>
      have hc0 : u.head? = some c0 := by rw [hucase]; rfl
      have hc0sp : isSpaceCh c0 = false := huleadsp c0 hc0
      have hc0sep : isSepCh c0 = false :=
        out_not_space_not_sep (huout c0 (mem_of_head? hc0)) hc0sp
      have hvh : v.head? = some c0 := collapseGo_head_nonsep false hc0 hc0sep
      rw [hvh, Option.some.injEq] at hc
      rw [← hc]
      exact ⟨(numPrefix_false_parts (huleadnum c0 hc0)).1, hc0sp⟩
  have h5 : v.filter isKeepCh = v :=
    List.filter_eq_self.mpr (fun c hc => out_keep (hvout c hc))
  have h6 : v.map lowerCh = v := map_id_of_eq (fun c hc => out_lowerCh_id (hvout c hc))
  have hpipe : normalizeChars t = stripChars v := by
    simp only [normalizeChars, collapseSeps]
    rw [h1, h2, hs2, ← hv, h5, h6]
  rw [hpipe]
  refine ⟨fun c hc => hvout c (mem_strip hc), ?_, fun c hc => strip_noTrail hc,
    noTwoSpaces_strip hvnts⟩
  intro c hc
  have hvlead : ∀ d, v.head? = some d → isSpaceCh d = false :=
    fun d hd => (hvhead d hd).2
  exact hvhead c (strip_head hvlead hc)

/-- Claim C2 (amended): the double application of the normalizer is
idempotent — a third pass returns the second pass's output unchanged —
while single-pass idempotence fails (see the counterexample). -/
theorem normalize_name_twice_idempotent (s : String) :
    normalize_name (normalize_name (normalize_name s)) =
      normalize_name (normalize_name s) := by
  have hdata : ∀ t : String, (normalize_name t).data = normalizeChars t.data :=
    fun _ => rfl
  have key : ∀ t : String, NF t.data → normalize_name t = t := by
    intro t h
    unfold normalize_name
    rw [normalizeChars_eq_self_of_NF h]
  apply key
  rw [hdata, hdata]
  exact NF_normalizeChars_twice s.data

/-! ## The lexicographic order on rank vectors -/

/-- `vecGt` is irreflexive. -/
theorem vecGt_irrefl : ∀ v : List Nat, vecGt v v = false := by
  intro v
  induction v with
  | nil => rfl
  | cons a as ih =>
    unfold vecGt
    rw [if_neg (lt_irrefl a), if_neg (lt_irrefl a)]
    exact ih

/-- `vecGt` is transitive. -/
theorem vecGt_trans : ∀ (a b c : List Nat), vecGt a b = true → vecGt b c = true →
    vecGt a c = true := by
  intro a
  induction a with
  | nil => intro b c hab _; simp [vecGt] at hab
  | cons x xs ih =>
    intro b c hab hbc
    cases b with
    | nil => simp [vecGt] at hbc
    | cons y ys =>
      cases c with
      | nil => rfl
      | cons z zs =>
        unfold vecGt at hab hbc ⊢
        by_cases h1 : y < x
        · rw [if_pos h1] at hab
          by_cases h2 : z < y
          · rw [if_pos (by omega : z < x)]
          · rw [if_neg h2] at hbc
            by_cases h3 : y < z
            · rw [if_pos h3] at hbc; simp at hbc
            · have hyz : y = z := by omega
              subst hyz
              rw [if_pos h1]
        · rw [if_neg h1] at hab
          by_cases h4 : x < y
          · rw [if_pos h4] at hab; simp at hab
          · rw [if_neg h4] at hab
            have hxy : x = y := by omega
            subst hxy
            by_cases h2 : z < x
            · rw [if_pos h2] at hbc ⊢
            · rw [if_neg h2] at hbc ⊢
              by_cases h3 : x < z
              · rw [if_pos h3] at hbc; simp at hbc
              · rw [if_neg h3] at hbc ⊢
                exact ih ys zs hab hbc

/-- `vecGt` is asymmetric. -/
theorem vecGt_asymm {a b : List Nat} (h : vecGt a b = true) : vecGt b a = false := by
  cases hba : vecGt b a with
  | false => rfl
  | true =>
    have hc := vecGt_trans a b a h hba
    rw [vecGt_irrefl] at hc
    simp at hc

/-- Mutually incomparable vectors are equal. -/
theorem vecGt_total : ∀ (a b : List Nat), vecGt a b = false → vecGt b a = false →
    a = b := by
  intro a
  induction a with
  | nil =>
    intro b h1 h2
    cases b with
    | nil => rfl
    | cons y ys => simp [vecGt] at h2
  | cons x xs ih =>
    intro b h1 h2
    cases b with
    | nil => simp [vecGt] at h1
    | cons y ys =>
      unfold vecGt at h1 h2
      by_cases hyx : y < x
      · rw [if_pos hyx] at h1; simp at h1
      · by_cases hxy : x < y
        · rw [if_pos hxy] at h2; simp at h2
        · rw [if_neg hyx, if_neg hxy] at h1
          rw [if_neg hxy, if_neg hyx] at h2
          have hx : x = y := by omega
          subst hx
          rw [ih ys h1 h2]

/-! ## The best-version selection fold -/

/-- Reduction of one selection step on a stored candidate. -/
theorem selectStep_some (criteria : List String) (b p : Path) :
    selectStep criteria (some (b, rankOf criteria b)) p =
      if vecGt (rankOf criteria p) (rankOf criteria b) = true
      then some (p, rankOf criteria p) else some (b, rankOf criteria b) := by
  rfl

/-- Invariant of the best-version fold: starting from a stored candidate,
it returns the first maximum among the start and the list, keeping the
stored vector equal to the stored path's rank vector. -/
theorem selectFold_spec (criteria : List String) : ∀ (ps : List Path) (b : Path),
    ∃ w : Path,
      ps.foldl (selectStep criteria) (some (b, rankOf criteria b)) =
        some (w, rankOf criteria w) ∧
      (∀ q ∈ ps, vecGt (rankOf criteria q) (rankOf criteria w) = false) ∧
      vecGt (rankOf criteria b) (rankOf criteria w) = false ∧
      (w = b ∨ ∃ pre post, ps = pre ++ w :: post ∧
        vecGt (rankOf criteria w) (rankOf criteria b) = true ∧
        ∀ q ∈ pre, vecGt (rankOf criteria w) (rankOf criteria q) = true) := by
  intro ps
  induction ps with
  | nil =>
    intro b
    exact ⟨b, rfl, by simp, vecGt_irrefl _, Or.inl rfl⟩
  | cons q ps ih =>
    intro b
    rw [List.foldl_cons]
    by_cases hqb : vecGt (rankOf criteria q) (rankOf criteria b) = true
    · rw [selectStep_some, if_pos hqb]
      obtain ⟨w, hfold, hmax, hbw, hdisj⟩ := ih q
      refine ⟨w, hfold, ?_, ?_, ?_⟩
      · intro r hr
        rcases List.mem_cons.mp hr with hr1 | hr1
        · rw [hr1]
          exact hbw
        · exact hmax r hr1
      · cases hbwv : vecGt (rankOf criteria b) (rankOf criteria w) with
        | false => rfl
        | true =>
          have hqw := vecGt_trans _ _ _ hqb hbwv
          rw [hbw] at hqw
          exact Bool.noConfusion hqw
      · right
        rcases hdisj with hwq | ⟨pre, post, hps, hwq, hpre⟩
        · subst hwq
          exact ⟨[], ps, rfl, hqb, by simp⟩
        · refine ⟨q :: pre, post, by rw [hps, List.cons_append], vecGt_trans _ _ _ hwq hqb, ?_⟩
          intro r hr
          rcases List.mem_cons.mp hr with hr1 | hr1
          · rw [hr1]
            exact hwq
          · exact hpre r hr1
    · have hqb' : vecGt (rankOf criteria q) (rankOf criteria b) = false := by
        cases h : vecGt (rankOf criteria q) (rankOf criteria b) with
        | false => rfl
        | true => exact absurd h hqb
      rw [selectStep_some, if_neg (by rw [hqb']; simp)]
      obtain ⟨w, hfold, hmax, hbw, hdisj⟩ := ih b
      refine ⟨w, hfold, ?_, hbw, ?_⟩
      · intro r hr
        rcases List.mem_cons.mp hr with hr1 | hr1
        · rw [hr1]
          cases hqw : vecGt (rankOf criteria q) (rankOf criteria w) with
          | false => rfl
          | true =>
            rcases hdisj with hwb | ⟨pre, post, hps, hwb, hpre⟩
            · rw [hwb] at hqw
              rw [hqb'] at hqw
              exact Bool.noConfusion hqw
            · have hq_b := vecGt_trans _ _ _ hqw hwb
              rw [hqb'] at hq_b
              exact Bool.noConfusion hq_b
        · exact hmax r hr1
      · rcases hdisj with hwb | ⟨pre, post, hps, hwb, hpre⟩
        · exact Or.inl hwb
        · right
          refine ⟨q :: pre, post, by rw [hps, List.cons_append], hwb, ?_⟩
          intro r hr
          rcases List.mem_cons.mp hr with hr1 | hr1
          · rw [hr1]
            cases hbq : vecGt (rankOf criteria b) (rankOf criteria q) with
            | true => exact vecGt_trans _ _ _ hwb hbq
            | false =>
              have heq : rankOf criteria q = rankOf criteria b :=
                vecGt_total _ _ hqb' hbq
              rw [heq]
              exact hwb
          · exact hpre r hr1

/-- `find?` skips a prefix on which the predicate fails. -/
theorem find?_append_of_none {p : Path → Bool} : ∀ (l1 l2 : List Path),
    (∀ a ∈ l1, p a = false) → (l1 ++ l2).find? p = l2.find? p := by
  intro l1
  induction l1 with
  | nil => intro l2 _; rfl
  | cons a l1 ih =>
    intro l2 h
    rw [List.cons_append, List.find?_cons_of_neg _ (by rw [h a (List.mem_cons_self _ _)]; simp),
      ih l2 (fun b hb => h b (List.mem_cons_of_mem _ hb))]

/-- The best-version fold always yields a winner on a non-empty group. -/
theorem selectBest_isSome (criteria : List String) (rom_paths : List Path)
    (h : rom_paths ≠ []) : (selectBest criteria rom_paths).isSome = true := by
  cases rom_paths with
  | nil => exact absurd rfl h
  | cons p ps =>
    obtain ⟨w, hfold, -, -, -⟩ := selectFold_spec criteria ps p
    unfold selectBest
    rw [List.foldl_cons]
    show (ps.foldl (selectStep criteria) (some (p, rankOf criteria p))).isSome = true
    rw [hfold]
    rfl

/-- Claim C4: the selection returns exactly the first member (in
discovery order) whose rank vector is a lexicographic maximum of the
group — no member's vector beats it — paired with its own rank vector;
and element `i` of a rank vector is `1` exactly when criterion `i` is a
literal substring of the raw filename, `0` otherwise. -/
theorem selectBest_first_lex_max (criteria : List String) (rom_paths : List Path) :
    selectBest criteria rom_paths =
      (rom_paths.find? (fun q => rom_paths.all
        (fun r => !(vecGt (rankOf criteria r) (rankOf criteria q))))).map
        (fun w => (w, rankOf criteria w)) ∧
    (∀ (s : String) (i : Nat), (get_rom_rank_vector s criteria)[i]? =
      (criteria[i]?).map
        (fun criterion => if occursIn criterion.data s.data then 1 else 0)) := by
  constructor
  · cases rom_paths with
    | nil => rfl
    | cons p ps =>
      have hstart : selectBest criteria (p :: ps) =
          ps.foldl (selectStep criteria) (some (p, rankOf criteria p)) := by
        unfold selectBest
        rw [List.foldl_cons]
        rfl
      obtain ⟨w, hfold, hmax, hpw, hdisj⟩ := selectFold_spec criteria ps p
      have hmax' : ∀ q ∈ p :: ps,
          vecGt (rankOf criteria q) (rankOf criteria w) = false := by
        intro q hq
        rcases List.mem_cons.mp hq with h1 | h1
        · rw [h1]; exact hpw
        · exact hmax q h1
      have hdec : ∃ pre post, p :: ps = pre ++ w :: post ∧
          ∀ q ∈ pre, vecGt (rankOf criteria w) (rankOf criteria q) = true := by
        rcases hdisj with hwp | ⟨pre, post, hps, hwp, hpre⟩
        · exact ⟨[], ps, by rw [hwp, List.nil_append], by simp⟩
        · refine ⟨p :: pre, post, by rw [hps, List.cons_append], ?_⟩
          intro q hq
          rcases List.mem_cons.mp hq with h1 | h1
          · rw [h1]; exact hwp
          · exact hpre q h1
      obtain ⟨pre, post, hsplit, hpre⟩ := hdec
      rw [hsplit] at hmax'
      rw [hstart, hfold, hsplit]
      rw [find?_append_of_none pre (w :: post) ?hfail]
      case hfail =>
        intro a ha
        show (pre ++ w :: post).all
          (fun r => !(vecGt (rankOf criteria r) (rankOf criteria a))) = false
        cases hall : (pre ++ w :: post).all
            (fun r => !(vecGt (rankOf criteria r) (rankOf criteria a))) with
        | false => rfl
        | true =>
          exfalso
          rw [List.all_eq_true] at hall
          have hw := hall w (by simp)
          rw [hpre a ha] at hw
          simp at hw
      rw [List.find?_cons_of_pos _ (by
        show (pre ++ w :: post).all
          (fun r => !(vecGt (rankOf criteria r) (rankOf criteria w))) = true
        rw [List.all_eq_true]
        intro r hr
        rw [hmax' r hr]
        rfl)]
      rfl
  · intro s i
    exact List.getElem?_map _ _ _

/-! ## The defensive no-winner branch (claim C9) -/

/-- A relocation never logs the defensive no-winner warning. -/
theorem handle_file_move_no_warnNoBest (fs : FS) (s d : Path) (dry a : Bool)
    (k : String × String) :
    LogEvent.warnNoBest k ∉ (handle_file_move fs s d dry a).2 := by
  unfold handle_file_move
  by_cases h : pathExists fs d
  · rw [if_pos h]; simp
  · rw [if_neg h]
    by_cases hd : dry = true
    · rw [if_pos hd]; simp
    · rw [if_neg hd]; simp

/-- `runMove` never introduces the defensive no-winner warning. -/
theorem runMove_no_warnNoBest (st : St) (s d : Path) (dry a : Bool)
    (k : String × String) (h : LogEvent.warnNoBest k ∉ st.logs) :
    LogEvent.warnNoBest k ∉ (runMove st s d dry a).logs := by
  show LogEvent.warnNoBest k ∉ st.logs ++ (handle_file_move st.fs s d dry a).2
  rw [List.mem_append]
  rintro (hc | hc)
  · exact h hc
  · exact handle_file_move_no_warnNoBest st.fs s d dry a k hc

/-- The loser-archiving loop never introduces the no-winner warning. -/
theorem foldl_runMove_no_warnNoBest (cfg : Config) (b : Path) (dry : Bool)
    (k : String × String) : ∀ (ps : List Path) (st : St),
    LogEvent.warnNoBest k ∉ st.logs →
    LogEvent.warnNoBest k ∉ ((ps.foldl (fun s q => if q = b then s
      else runMove s q (cfg.archive_dir ++ [nameOf q]) dry true) st).logs) := by
  intro ps
  induction ps with
  | nil => intro st h; exact h
  | cons p ps ih =>
    intro st h
    rw [List.foldl_cons]
    apply ih
    by_cases hp : p = b
    · rw [if_pos hp]; exact h
    · rw [if_neg hp]
      exact runMove_no_warnNoBest st p _ dry true k h

/-- Claim C9: on a non-empty group the best-version selection always
succeeds, and processing the group never emits the defensive
"could not determine a best version" warning. -/
theorem selector_no_failure (cfg : Config) (dry_run : Bool) (fs : FS)
    (k : String × String) (ps : List Path) (h : ps ≠ []) :
    (selectBest cfg.ranking_criteria ps).isSome = true ∧
      LogEvent.warnNoBest k ∉ (processGroup cfg dry_run ⟨fs, []⟩ (k, ps)).logs := by
  refine ⟨selectBest_isSome _ _ h, ?_⟩
  cases ps with
  | nil => exact absurd rfl h
  | cons p ps' =>
    cases ps' with
    | nil =>
      show LogEvent.warnNoBest k ∉
        (runMove ⟨fs, []⟩ p (cfg.rom_destination_dir ++ [nameOf p]) dry_run false).logs
      apply runMove_no_warnNoBest
      simp
    | cons q rest =>
      have hs := selectBest_isSome cfg.ranking_criteria (p :: q :: rest) (by simp)
      unfold processGroup
      cases hsel : selectBest cfg.ranking_criteria (p :: q :: rest) with
      | none => rw [hsel] at hs; simp at hs
      | some pr =>
        obtain ⟨bp, bv⟩ := pr
        simp only [hsel]
        apply foldl_runMove_no_warnNoBest
        apply runMove_no_warnNoBest
        simp

/-- Witness for claim C9 on a concrete singleton group. -/
theorem selector_no_failure_witness :
    (selectBest cfgScenario.ranking_criteria [["roms", "a.zip"]]).isSome = true ∧
      LogEvent.warnNoBest ("a", ".zip") ∉
        (processGroup cfgScenario false ⟨fsEmptySource, []⟩
          (("a", ".zip"), [["roms", "a.zip"]])).logs :=
  selector_no_failure cfgScenario false fsEmptySource ("a", ".zip")
    [["roms", "a.zip"]] (by decide)

/-! ## The duplicate cleaner's delete set (claims C5 and C10) -/

/-- Membership in the zip-stem set of a directory listing. -/
theorem mem_zipStems_iff (filenames : List String) (s : String) :
    s ∈ zipStems filenames ↔
      ∃ g, g ∈ filenames ∧ isZipName g = true ∧ stemOf g = s := by
  unfold zipStems
  rw [List.mem_map]
  constructor
  · rintro ⟨g, hg, hgs⟩
    rw [List.mem_filter] at hg
    exact ⟨g, hg.1, hg.2, hgs⟩
  · rintro ⟨g, hg, hzip, hgs⟩
    exact ⟨g, List.mem_filter.mpr ⟨hg, hzip⟩, hgs⟩

/-- Claim C5: a file of a directory listing is marked for deletion
exactly when some file of the same listing has the same stem and a name
ending in `.zip` (case-insensitively), the file's own lowered extension
is not `.zip`, and that extension is not excluded.  In particular a
listing without a zip file yields no deletion, since the witness `g`
cannot exist. -/
theorem cleaner_deletes_iff (filenames excluded_extensions : List String) :
    ∀ f, f ∈ filesToRemove filenames excluded_extensions ↔
      (f ∈ filenames ∧
        (∃ g, g ∈ filenames ∧ isZipName g = true ∧ stemOf g = stemOf f) ∧
        suffixLowerOf f ≠ ".zip" ∧ suffixLowerOf f ∉ excluded_extensions) := by
  intro f
  unfold filesToRemove
  by_cases hz : zipStems filenames = []
  · rw [if_pos hz]
    simp only [List.not_mem_nil, false_iff]
    rintro ⟨hf, ⟨g, hg, hzip, hstem⟩, -, -⟩
    have hmem : stemOf f ∈ zipStems filenames :=
      (mem_zipStems_iff _ _).mpr ⟨g, hg, hzip, hstem⟩
    rw [hz] at hmem
    exact List.not_mem_nil _ hmem
  · rw [if_neg hz, List.mem_filter]
    simp only [Bool.and_eq_true, decide_eq_true_eq, Bool.not_eq_true',
      decide_eq_false_iff_not]
    rw [mem_zipStems_iff]
    tauto

/-- The last segment of a non-empty path, through `getLast?`. -/
theorem getLast?_eq_nameOf {p : Path} (hne : p ≠ []) : p.getLast? = some (nameOf p) := by
  have hs := List.getLast?_isSome.mpr hne
  rw [Option.isSome_iff_exists] at hs
  obtain ⟨x, hx⟩ := hs
  unfold nameOf
  rw [List.getLastD_eq_getLast?, hx]
  rfl

/-- A non-empty path splits into its parent and its name. -/
theorem dropLast_append_nameOf {p : Path} (hne : p ≠ []) :
    p.dropLast ++ [nameOf p] = p :=
  List.dropLast_append_getLast? (nameOf p)
    (by rw [Option.mem_def, getLast?_eq_nameOf hne])

/-- The name of a file appears in its own directory's listing. -/
theorem nameOf_mem_dirFilenames (fs : FS) {p : Path} (hmem : p ∈ fs.files)
    (hne : p ≠ []) : nameOf p ∈ dirFilenames fs p.dropLast := by
  unfold dirFilenames
  rw [List.mem_filterMap]
  exact ⟨p, hmem, by rw [if_pos rfl, getLast?_eq_nameOf hne]⟩

/-- Claim C10: the duplicate cleaner does not consult the excluded
directories: a file inside an excluded directory is still marked for
deletion when it has a same-stem zip sibling and a non-excluded, non-zip
extension, while the grouping scan would skip that very file on any
filesystem. -/
theorem cleaner_ignores_excluded_dirs (fs gs : FS) (cfg : Config) (p : Path)
    (hmem : p ∈ fs.files) (hne : p ≠ [])
    (hdir : p.dropLast ∈ subdirsOf fs cfg.rom_source_dir)
    (hzip : ∃ q, q ∈ fs.files ∧ q ≠ [] ∧ q.dropLast = p.dropLast ∧
      isZipName (nameOf q) = true ∧ stemOf (nameOf q) = stemOf (nameOf p))
    (hnotzip : suffixLowerOf (nameOf p) ≠ ".zip")
    (hnotexcl : suffixLowerOf (nameOf p) ∉ cfg.excluded_extensions.map strLower)
    (hexdir : ∃ part ∈ p.dropLast, strLower part ∈ cfg.excluded_dirs.map strLower) :
    p ∈ cleanupDeleteSet fs cfg.rom_source_dir (cfg.excluded_extensions.map strLower) ∧
      p ∉ scanFiles gs cfg.rom_source_dir (cfg.excluded_dirs.map strLower)
        (cfg.excluded_extensions.map strLower) := by
  constructor
  · unfold cleanupDeleteSet
    rw [List.mem_flatMap]
    refine ⟨(p.dropLast, dirFilenames fs p.dropLast), ?_, ?_⟩
    · unfold fsWalk
      exact List.mem_map_of_mem _ hdir
    · rw [List.mem_map]
      refine ⟨nameOf p, ?_, dropLast_append_nameOf hne⟩
      obtain ⟨q, hq, hqne, hqd, hqzip, hqstem⟩ := hzip
      have hqname : nameOf q ∈ dirFilenames fs p.dropLast := by
        unfold dirFilenames
        rw [List.mem_filterMap]
        exact ⟨q, hq, by rw [if_pos hqd, getLast?_eq_nameOf hqne]⟩
      have hstem_mem : stemOf (nameOf p) ∈ zipStems (dirFilenames fs p.dropLast) := by
        rw [← hqstem]
        exact (mem_zipStems_iff _ _).mpr ⟨nameOf q, hqname, hqzip, rfl⟩
      have hzne : zipStems (dirFilenames fs p.dropLast) ≠ [] :=
        List.ne_nil_of_mem hstem_mem
      unfold filesToRemove
      rw [if_neg hzne, List.mem_filter]
      refine ⟨nameOf_mem_dirFilenames fs hmem hne, ?_⟩
      simp only [Bool.and_eq_true, decide_eq_true_eq, Bool.not_eq_true',
        decide_eq_false_iff_not]
      exact ⟨⟨hstem_mem, hnotzip⟩, hnotexcl⟩
  · intro hmem2
    unfold scanFiles at hmem2
    rw [List.mem_filter] at hmem2
    have hpred := hmem2.2
    simp only [Bool.and_eq_true] at hpred
    have hany := hpred.2
    rw [Bool.not_eq_true'] at hany
    rw [List.any_eq_false] at hany
    obtain ⟨part, hpart, hlow⟩ := hexdir
    exact (hany part hpart) (by simp only [decide_eq_true_eq]; exact hlow)

/-- A tree with a same-stem zip and bin inside an excluded `images`
directory. -/
def fsExcl : FS :=
  ⟨[["roms", "images", "a.zip"], ["roms", "images", "a.bin"]],
   [["roms"], ["roms", "images"]]⟩

/-- Witness for claim C10 on the concrete excluded-directory tree. -/
theorem cleaner_ignores_excluded_dirs_witness :
    ["roms", "images", "a.bin"] ∈ cleanupDeleteSet fsExcl ["roms"]
        (cfgScenario.excluded_extensions.map strLower) ∧
      ["roms", "images", "a.bin"] ∉ scanFiles fsExcl ["roms"]
        (cfgScenario.excluded_dirs.map strLower)
        (cfgScenario.excluded_extensions.map strLower) :=
  cleaner_ignores_excluded_dirs fsExcl fsExcl cfgScenario ["roms", "images", "a.bin"]
    (by decide) (by decide) (by decide) (by decide) (by decide) (by decide) (by decide)

end RomSorter